import Mathlib

/-
Verification of the pivot-frequency aggregation engine of the whop-web-app
repository (src/pages/pivot_analysis.py), as a shallow embedding.

Conventions of the embedding:
* A timestamp is the number of minutes since an epoch placed at 00:00 UTC
  on a Monday; hence `dateOf`, `hourOf`, `weekdayOf` below agree with
  pandas `.dt.date`, `.hour`, `.dt.dayofweek`.
* Prices are rationals; the float arithmetic of the source
  (count / denominator * 100, round(x, 1)) is embedded as exact rational
  arithmetic with Python's banker rounding.
* A pandas DataFrame of candles is a `List Candle` in row order; the fetch
  layer (fetch_bybit_data, lines 564-577) drops duplicate timestamps and
  sorts ascending before the analysis code runs.
* The `(None, None, None, None)` quadruple of get_todays_pivots is the
  `none` of an `Option` of quadruples.
-/

namespace Whop

/-- One OHLCV candle.  The pivot analysis reads only the `start_time`,
`high` and `low` columns, so only those are embedded.  `start_time` is in
minutes since an epoch at 00:00 UTC on a Monday. -/
structure Candle where
  start_time : ℕ
  high : ℚ
  low : ℚ
deriving DecidableEq, Repr

/-- UTC calendar date of a timestamp, as days since the epoch. -/
def dateOf (t : ℕ) : ℕ := t / 1440

/-- UTC hour-of-day (0..23) of a timestamp. -/
def hourOf (t : ℕ) : ℕ := t % 1440 / 60

/-- UTC weekday, 0 = Monday .. 6 = Sunday, as pandas `dt.dayofweek` and
`datetime.weekday()`; the epoch day 0 is a Monday. -/
def weekdayOf (t : ℕ) : ℕ := dateOf t % 7

/-- Monday-aligned week index of a timestamp.  ISO (year, week) pairs, as
produced by `dt.isocalendar()` (lines 1327-1328), are in bijection with
Monday-aligned 7-day blocks, so grouping by ISO (year, week) is exactly
grouping by this index. -/
def weekOf (t : ℕ) : ℕ := dateOf t / 7

/-- Insert a candle into a time-ascending list, keeping ascending order. -/
def insertByTime (c : Candle) : List Candle → List Candle
  | [] => [c]
  | d :: ds =>
    if d.start_time ≤ c.start_time then d :: insertByTime c ds
    else c :: d :: ds

/-- Time-ascending sort, embedding `DataFrame.sort_values('start_time')`.
Timestamps are unique after the fetch layer's drop_duplicates, so
stability of the sort is immaterial. -/
def sortByTime : List Candle → List Candle
  | [] => []
  | c :: cs => insertByTime c (sortByTime cs)

/-- Candle with the maximal `high`, first occurrence kept on ties: the
row retrieved through `Series.idxmax` on the `high` column. -/
def maxHighCandle (c : Candle) : List Candle → Candle
  | [] => c
  | d :: ds => maxHighCandle (if c.high < d.high then d else c) ds

/-- Candle with the minimal `low`, first occurrence kept on ties: the
row retrieved through `Series.idxmin` on the `low` column. -/
def minLowCandle (c : Candle) : List Candle → Candle
  | [] => c
  | d :: ds => minLowCandle (if d.low < c.low then d else c) ds

/-- Round a rational to the nearest integer, ties to even: Python's
builtin `round` on an exact value. -/
def roundHalfEven (q : ℚ) : ℤ :=
  if q - ⌊q⌋ < 1 / 2 then ⌊q⌋
  else if 1 / 2 < q - ⌊q⌋ then ⌊q⌋ + 1
  else if ⌊q⌋ % 2 = 0 then ⌊q⌋ else ⌊q⌋ + 1

/-- Python's `round(x, 1)` on an exact value. -/
def round1 (q : ℚ) : ℚ := (roundHalfEven (10 * q) : ℚ) / 10

/-- `Series.max()` over a list of dates: `none` on an empty list. -/
def maxDate : List ℕ → Option ℕ
  | [] => none
  | d :: ds => some (ds.foldl max d)

/-- One row of the `pivot_rows` list built at lines 639-643: the day's
date and the hour slots of its two extrema. -/
structure PivotDay where
  date : ℕ
  p1_hour : ℕ
  p2_hour : ℕ
deriving DecidableEq, Repr

/-- One row of the daily frequency table.  The source renders the hour as
the zero-padded string "HH:00"; the embedding keeps the hour number
(lexicographic order on the zero-padded strings coincides with numeric
order on 0..23). -/
structure TableRow where
  hour : ℕ
  p1_pct : ℚ
  p1_last : Option ℤ
  p2_pct : ℚ
  p2_last : Option ℤ
deriving DecidableEq, Repr

/-- build_empty_pivot_table (lines 588-599): 24 rows, hours 0..23, zero
percentages, `None` recency. -/
def build_empty_pivot_table : List TableRow :=
  (List.range 24).map fun h => ⟨h, 0, none, 0, none⟩

/-- The weekday filtering applied by calculate_pivot_analysis at lines
607-612 (sort, derive the weekday from each candle's own timestamp, keep
the selected weekdays). -/
def dailyFiltered (l : List Candle) (selected_weekdays : List ℕ) : List Candle :=
  (sortByTime l).filter fun c => weekdayOf c.start_time ∈ selected_weekdays

/-- Ascending list of the distinct dates of a series: the keys of
`df.groupby('date')`, iterated in ascending order. -/
def datesOf (l : List Candle) : List ℕ :=
  (l.map fun c => dateOf c.start_time).dedup

/-- The sub-series of candles on one date, in series order: one group of
`df.groupby('date')`. -/
def dayBucket (l : List Candle) (d : ℕ) : List Candle :=
  l.filter fun c => dateOf c.start_time = d

/-- The per-day extremum scan of calculate_pivot_analysis (lines
617-643): for each date group, idxmax on `high` and idxmin on `low`,
then the `high_time < low_time` comparison assigning the P1/P2 hours. -/
def pivotDaysOf (l : List Candle) : List PivotDay :=
  (datesOf l).filterMap fun d =>
    match dayBucket l d with
    | [] => none
    | c :: cs =>
      let high_time := (maxHighCandle c cs).start_time
      let low_time := (minLowCandle c cs).start_time
      if high_time < low_time then some ⟨d, hourOf high_time, hourOf low_time⟩
      else some ⟨d, hourOf low_time, hourOf high_time⟩

/-- calculate_pivot_analysis (lines 602-695).  The evaluation instant is
passed explicitly as `now`: it stands for `datetime.now(timezone.utc)`
(line 649); the process clock is UTC, so `date.today()` (line 664) is
`dateOf now` as well. -/
def calculate_pivot_analysis (df0 : Option (List Candle))
    (selected_weekdays : List ℕ) (now : ℕ) : List TableRow × ℕ :=
  match df0 with
  | none => (build_empty_pivot_table, 0)
  | some l0 =>
    if l0.isEmpty then (build_empty_pivot_table, 0) else
    let df := dailyFiltered l0 selected_weekdays
    if df.isEmpty then (build_empty_pivot_table, 0) else
    let pivot_rows := pivotDaysOf df
    if pivot_rows.isEmpty then (build_empty_pivot_table, 0) else
    let current_date := dateOf now
    let has_current_day := pivot_rows.any fun p => p.date = current_date
    let completed0 :=
      if has_current_day then pivot_rows.filter fun p => p.date ≠ current_date
      else pivot_rows
    let eligible := if completed0.length = 0 then pivot_rows else completed0
    let completed_days := eligible.length
    let today := dateOf now
    let denominator := if 0 < completed_days then completed_days else 1
    let rows := (List.range 24).map fun hour =>
      let p1_count := (eligible.filter fun p => p.p1_hour = hour).length
      let p2_count := (eligible.filter fun p => p.p2_hour = hour).length
      let p1_dates := (pivot_rows.filter fun p => p.p1_hour = hour).map PivotDay.date
      let p2_dates := (pivot_rows.filter fun p => p.p2_hour = hour).map PivotDay.date
      let p1_last := (maxDate p1_dates).map fun m => (today : ℤ) - (m : ℤ)
      let p2_last := (maxDate p2_dates).map fun m => (today : ℤ) - (m : ℤ)
      let p1_pct : ℚ := if 0 < denominator then (p1_count : ℚ) / denominator * 100 else 0
      let p2_pct : ℚ := if 0 < denominator then (p2_count : ℚ) / denominator * 100 else 0
      ⟨hour, round1 p1_pct, p1_last, round1 p2_pct, p2_last⟩
    (rows, completed_days)

/-- The current-UTC-day slice taken by get_todays_pivots at lines
272-278. -/
def todaysData (l : List Candle) (now : ℕ) : List Candle :=
  l.filter fun c =>
    dateOf now * 1440 ≤ c.start_time ∧ c.start_time < dateOf now * 1440 + 1440

/-- get_todays_pivots (lines 255-307).  The all-None quadruple of the
source is `none`; a populated quadruple
(p1_hour, p2_hour, p1_time, p2_time) is `some`. -/
def get_todays_pivots (kline_data : Option (List Candle)) (now : ℕ) :
    Option (ℕ × ℕ × ℕ × ℕ) :=
  match kline_data with
  | none => none
  | some l =>
    if l.isEmpty then none else
    match sortByTime (todaysData l now) with
    | [] => none
    | c :: cs =>
      let high_time := (maxHighCandle c cs).start_time
      let low_time := (minLowCandle c cs).start_time
      if high_time < low_time then
        some (hourOf high_time, hourOf low_time, high_time, low_time)
      else
        some (hourOf low_time, hourOf high_time, low_time, high_time)

/-- One entry of the weekly scan (lines 1337-1366): the Monday-aligned
week index, the weekday slots of the two extrema, and their exact
timestamps. -/
structure WeekPivot where
  week : ℕ
  p1_wd : ℕ
  p2_wd : ℕ
  p1_time : ℕ
  p2_time : ℕ
deriving DecidableEq, Repr

/-- The weekday filtering of the weekly tab (lines 1271-1277), applied
before the ISO-week grouping.  The fetch layer hands the series over
time-ascending, which the entry sort makes explicit. -/
def weeklyFiltered (kl : List Candle) (selected_weekdays : List ℕ) : List Candle :=
  (sortByTime kl).filter fun c => weekdayOf c.start_time ∈ selected_weekdays

/-- Ascending list of the distinct week indices of a series: the keys of
`groupby(['year', 'week'])`, iterated in ascending order. -/
def weeksOf (l : List Candle) : List ℕ :=
  (l.map fun c => weekOf c.start_time).dedup

/-- The sub-series of candles in one ISO week, in series order. -/
def weekBucket (l : List Candle) (w : ℕ) : List Candle :=
  l.filter fun c => weekOf c.start_time = w

/-- The per-week extremum scan of render_weekly_analysis (lines
1331-1366): idxmax on `high`, idxmin on `low`, then the
`high_time < low_time` comparison assigning P1/P2. -/
def weekPivotsOf (l : List Candle) : List WeekPivot :=
  (weeksOf l).filterMap fun w =>
    match weekBucket l w with
    | [] => none
    | c :: cs =>
      let high_time := (maxHighCandle c cs).start_time
      let low_time := (minLowCandle c cs).start_time
      if high_time < low_time then
        some ⟨w, weekdayOf high_time, weekdayOf low_time, high_time, low_time⟩
      else
        some ⟨w, weekdayOf low_time, weekdayOf high_time, low_time, high_time⟩

/-- `p1_counts[weekday_name]` of the weekly scan (lines 1319, 1361). -/
def weekP1Count (l : List Candle) (wd : ℕ) : ℕ :=
  ((weekPivotsOf l).filter fun p => p.p1_wd = wd).length

/-- `p2_counts[weekday_name]` of the weekly scan (lines 1320, 1362). -/
def weekP2Count (l : List Candle) (wd : ℕ) : ℕ :=
  ((weekPivotsOf l).filter fun p => p.p2_wd = wd).length

/-- `p1_last[weekday_name]` (lines 1321, 1365): every matching week
overwrites the entry, and weeks are visited in ascending order, so the
surviving value comes from the last matching week. -/
def weekP1Last (l : List Candle) (today : ℕ) (wd : ℕ) : Option ℤ :=
  (((weekPivotsOf l).filter fun p => p.p1_wd = wd).getLast?).map
    fun p => (today : ℤ) - (dateOf p.p1_time : ℤ)

/-- `p2_last[weekday_name]` (lines 1322, 1366). -/
def weekP2Last (l : List Candle) (today : ℕ) (wd : ℕ) : Option ℤ :=
  (((weekPivotsOf l).filter fun p => p.p2_wd = wd).getLast?).map
    fun p => (today : ℤ) - (dateOf p.p2_time : ℤ)

/-- One row of the weekly frequency table (lines 1368-1379); the weekday
is kept as a number 0 = Monday .. 6 = Sunday instead of its name. -/
structure WeekRow where
  weekday : ℕ
  p1_pct : ℚ
  p1_last : Option ℤ
  p2_pct : ℚ
  p2_last : Option ℤ
deriving DecidableEq, Repr

/-- The weekly frequency table and total week count (lines 1318-1381);
`today` stands for `date.today()` at line 1324. -/
def weeklyTable (kl : List Candle) (selected_weekdays : List ℕ) (today : ℕ) :
    List WeekRow × ℕ :=
  let l := weeklyFiltered kl selected_weekdays
  let total_weeks := (weekPivotsOf l).length
  let rows := (List.range 7).map fun wd =>
    let p1_pct : ℚ :=
      if 0 < total_weeks then (weekP1Count l wd : ℚ) / total_weeks * 100 else 0
    let p2_pct : ℚ :=
      if 0 < total_weeks then (weekP2Count l wd : ℚ) / total_weeks * 100 else 0
    ⟨wd, round1 p1_pct, weekP1Last l today wd, round1 p2_pct, weekP2Last l today wd⟩
  (rows, total_weeks)

/-- after_p1 / after_current / after_p2 on the daily numeric table
(lines 1019-1020, 1032-1033, 1048-1050): the rows whose "HH:00" string
is strictly after the reference hour's (zero-padded strings compare
lexicographically exactly as the hour numbers), with the `P1 %` column
summed; an empty selection sums to 0 just as the source's
`if not ... .empty else 0`. -/
def sumP1After (table : List TableRow) (ref : ℕ) : ℚ :=
  ((table.filter fun r => ref < r.hour).map TableRow.p1_pct).sum

/-- at_or_after_p2 (lines 1023-1025): rows with Hour at or after the
current P2 hour, `P1 %` summed. -/
def sumP1AtOrAfter (table : List TableRow) (ref : ℕ) : ℚ :=
  ((table.filter fun r => ref ≤ r.hour).map TableRow.p1_pct).sum

/-- The `P2 %` analogue of `sumP1After` (lines 1044-1045, 1048-1050). -/
def sumP2After (table : List TableRow) (ref : ℕ) : ℚ :=
  ((table.filter fun r => ref < r.hour).map TableRow.p2_pct).sum

/-- The weekly after-sums for P1 (lines 1519-1526): for i in
range(ref + 1, 7), add `p1_counts[weekday_names[i]] / total_weeks * 100`
(unrounded) when total_weeks > 0, else 0. -/
def weeklyAfterP1 (kl : List Candle) (selected_weekdays : List ℕ) (ref : ℕ) : ℚ :=
  let l := weeklyFiltered kl selected_weekdays
  let total_weeks := (weekPivotsOf l).length
  (List.range' (ref + 1) (7 - (ref + 1))).foldl
    (fun acc i => acc +
      (if 0 < total_weeks then (weekP1Count l i : ℚ) / total_weeks * 100 else 0)) 0

/-- The weekly after-sums for P2 (lines 1536-1543). -/
def weeklyAfterP2 (kl : List Candle) (selected_weekdays : List ℕ) (ref : ℕ) : ℚ :=
  let l := weeklyFiltered kl selected_weekdays
  let total_weeks := (weekPivotsOf l).length
  (List.range' (ref + 1) (7 - (ref + 1))).foldl
    (fun acc i => acc +
      (if 0 < total_weeks then (weekP2Count l i : ℚ) / total_weeks * 100 else 0)) 0

/-- Modelled from the spec's wording of the Extremum Locator (4.2), for
refinement comparison with the code paths: `high_time` is the timestamp
of the first candle (in time order) attaining the maximum high,
`low_time` that of the first candle attaining the minimum low, and the
slot pair follows the `high_time < low_time` comparison. -/
def spec_extremum_slots (l : List Candle) : Option (ℕ × ℕ) :=
  let s := sortByTime l
  match (s.map Candle.high).max?, (s.map Candle.low).min? with
  | some mh, some ml =>
    match s.find? (fun c => c.high = mh), s.find? (fun c => c.low = ml) with
    | some ch, some cl =>
      if ch.start_time < cl.start_time then
        some (hourOf ch.start_time, hourOf cl.start_time)
      else
        some (hourOf cl.start_time, hourOf ch.start_time)
    | _, _ => none
  | _, _ => none

/-- Per-row percentage lookup in a table, by slot value: the value of
the `P1 %` column in the row whose Hour is the given slot, 0 when the
slot has no row. -/
def p1PctAt (table : List TableRow) (s : ℕ) : ℚ :=
  ((table.find? fun r => r.hour = s).map TableRow.p1_pct).getD 0

/-- The `P2 %` analogue of `p1PctAt`. -/
def p2PctAt (table : List TableRow) (s : ℕ) : ℚ :=
  ((table.find? fun r => r.hour = s).map TableRow.p2_pct).getD 0

/-- Tail sum as the spec words it: the sum of the table's `P1 %` values
over all slots strictly greater than the reference slot, in the natural
slot order 0..23. -/
def specTailP1 (table : List TableRow) (ref : ℕ) : ℚ :=
  (((List.range 24).filter fun s => ref < s).map fun s => p1PctAt table s).sum

/-- The `P2 %` analogue of `specTailP1`. -/
def specTailP2 (table : List TableRow) (ref : ℕ) : ℚ :=
  (((List.range 24).filter fun s => ref < s).map fun s => p2PctAt table s).sum

/-- Strictly time-ascending series: the invariant the fetch layer
guarantees (drop_duplicates on start_time followed by an ascending
sort). -/
def StrictTimeSorted (l : List Candle) : Prop :=
  l.Chain' fun a b => a.start_time < b.start_time

theorem hourOf_lt (t : ℕ) : hourOf t < 24 := by
  unfold hourOf
  omega

theorem insertByTime_ne_nil (c : Candle) (l : List Candle) :
    insertByTime c l ≠ [] := by
  cases l <;> simp only [insertByTime]
  · simp
  · split <;> simp

theorem sortByTime_eq_nil_iff (l : List Candle) : sortByTime l = [] ↔ l = [] := by
  cases l with
  | nil => simp [sortByTime]
  | cons c cs =>
    simp only [sortByTime]
    constructor
    · intro h
      exact absurd h (insertByTime_ne_nil c (sortByTime cs))
    · intro h
      cases h

theorem insertByTime_perm (c : Candle) (l : List Candle) :
    (insertByTime c l).Perm (c :: l) := by
  induction l with
  | nil => simp [insertByTime]
  | cons d ds ih =>
    simp only [insertByTime]
    split
    · exact ((ih.cons d).trans (List.Perm.swap c d ds))
    · exact List.Perm.refl _

theorem sortByTime_perm (l : List Candle) : (sortByTime l).Perm l := by
  induction l with
  | nil => exact List.Perm.refl _
  | cons c cs ih =>
    exact (insertByTime_perm c (sortByTime cs)).trans (ih.cons c)

theorem sortByTime_eq_self (l : List Candle) (h : StrictTimeSorted l) :
    sortByTime l = l := by
  induction l with
  | nil => rfl
  | cons c cs ih =>
    have htail : StrictTimeSorted cs := h.tail
    simp only [sortByTime, ih htail]
    cases cs with
    | nil => rfl
    | cons d ds =>
      have hcd : c.start_time < d.start_time := (List.chain'_cons.mp h).1
      have hnle : ¬ d.start_time ≤ c.start_time := by omega
      simp only [insertByTime, if_neg hnle]

theorem maxHighCandle_mem : ∀ (cs : List Candle) (c : Candle),
    maxHighCandle c cs ∈ c :: cs := by
  intro cs
  induction cs with
  | nil => intro c; simp [maxHighCandle]
  | cons d ds ih =>
    intro c
    simp only [maxHighCandle]
    rcases List.mem_cons.mp (ih (if c.high < d.high then d else c)) with h | h
    · rw [h]
      split <;> simp
    · simp [List.mem_cons.mpr (Or.inr h)]

theorem high_le_maxHighCandle : ∀ (cs : List Candle) (c : Candle),
    c.high ≤ (maxHighCandle c cs).high := by
  intro cs
  induction cs with
  | nil => intro c; simp [maxHighCandle]
  | cons d ds ih =>
    intro c
    simp only [maxHighCandle]
    refine le_trans ?_ (ih (if c.high < d.high then d else c))
    split <;> simp_all [le_of_lt]

theorem maxHighCandle_is_max : ∀ (cs : List Candle) (c : Candle),
    ∀ e ∈ c :: cs, e.high ≤ (maxHighCandle c cs).high := by
  intro cs
  induction cs with
  | nil =>
    intro c e he
    simp only [List.mem_singleton] at he
    simp [he, maxHighCandle]
  | cons d ds ih =>
    intro c e he
    simp only [maxHighCandle]
    have hc : c.high ≤ (if c.high < d.high then d else c).high := by
      split <;> simp_all [le_of_lt]
    have hd : d.high ≤ (if c.high < d.high then d else c).high := by
      split
      · exact le_refl _
      · simp_all [le_of_not_lt]
    rcases List.mem_cons.mp he with h | h
    · rw [h]
      exact le_trans hc (high_le_maxHighCandle ds _)
    rcases List.mem_cons.mp h with h2 | h2
    · rw [h2]
      exact le_trans hd (high_le_maxHighCandle ds _)
    · exact ih _ e (List.mem_cons_of_mem _ h2)

theorem maxHighCandle_eq_or_lt : ∀ (cs : List Candle) (c : Candle),
    maxHighCandle c cs = c ∨ c.high < (maxHighCandle c cs).high := by
  intro cs
  induction cs with
  | nil => intro c; left; rfl
  | cons d ds ih =>
    intro c
    simp only [maxHighCandle]
    by_cases hcd : c.high < d.high
    · right
      rw [if_pos hcd]
      exact lt_of_lt_of_le hcd (high_le_maxHighCandle ds d)
    · rw [if_neg hcd]
      exact ih c

theorem map_high_max? : ∀ (cs : List Candle) (c : Candle),
    ((c :: cs).map Candle.high).max? = some (maxHighCandle c cs).high := by
  intro cs
  induction cs with
  | nil => intro c; rfl
  | cons d ds ih =>
    intro c
    have hmax : max c.high d.high = (if c.high < d.high then d else c).high := by
      split
      · exact max_eq_right (le_of_lt (by assumption))
      · exact max_eq_left (le_of_not_lt (by assumption))
    have step : ((c :: d :: ds).map Candle.high).max? =
        (((if c.high < d.high then d else c) :: ds).map Candle.high).max? := by
      have e1 : ((c :: d :: ds).map Candle.high).max? =
          some ((ds.map Candle.high).foldl max (max c.high d.high)) := rfl
      have e2 : (((if c.high < d.high then d else c) :: ds).map Candle.high).max? =
          some ((ds.map Candle.high).foldl max
            (if c.high < d.high then d else c).high) := rfl
      rw [e1, e2, hmax]
    rw [step, ih, maxHighCandle]

theorem find?_maxHighCandle : ∀ (cs : List Candle) (c : Candle),
    (c :: cs).find? (fun d => d.high = (maxHighCandle c cs).high) =
      some (maxHighCandle c cs) := by
  intro cs
  induction cs with
  | nil =>
    intro c
    have h : maxHighCandle c [] = c := rfl
    rw [h]
    exact List.find?_cons_of_pos _ (by simp)
  | cons d ds ih =>
    intro c
    by_cases hcd : c.high < d.high
    · have hM : maxHighCandle c (d :: ds) = maxHighCandle d ds := by
        simp [maxHighCandle, if_pos hcd]
      rw [hM]
      have hlt : c.high < (maxHighCandle d ds).high :=
        lt_of_lt_of_le hcd (high_le_maxHighCandle ds d)
      rw [List.find?_cons_of_neg _ (by simp [ne_of_lt hlt])]
      exact ih d
    · have hM : maxHighCandle c (d :: ds) = maxHighCandle c ds := by
        simp [maxHighCandle, if_neg hcd]
      rw [hM]
      rcases maxHighCandle_eq_or_lt ds c with heq | hlt
      · rw [heq]
        exact List.find?_cons_of_pos _ (by simp)
      · have hcne : c.high ≠ (maxHighCandle c ds).high := ne_of_lt hlt
        have hdne : d.high ≠ (maxHighCandle c ds).high :=
          ne_of_lt (lt_of_le_of_lt (le_of_not_lt hcd) hlt)
        rw [List.find?_cons_of_neg _ (by simp [hcne])]
        rw [List.find?_cons_of_neg _ (by simp [hdne])]
        have := ih c
        rw [List.find?_cons_of_neg _ (by simp [hcne])] at this
        exact this

theorem minLowCandle_mem : ∀ (cs : List Candle) (c : Candle),
    minLowCandle c cs ∈ c :: cs := by
  intro cs
  induction cs with
  | nil => intro c; simp [minLowCandle]
  | cons d ds ih =>
    intro c
    simp only [minLowCandle]
    rcases List.mem_cons.mp (ih (if d.low < c.low then d else c)) with h | h
    · rw [h]
      split <;> simp
    · simp [List.mem_cons.mpr (Or.inr h)]

theorem minLowCandle_le_low : ∀ (cs : List Candle) (c : Candle),
    (minLowCandle c cs).low ≤ c.low := by
  intro cs
  induction cs with
  | nil => intro c; simp [minLowCandle]
  | cons d ds ih =>
    intro c
    simp only [minLowCandle]
    refine le_trans (ih (if d.low < c.low then d else c)) ?_
    split <;> simp_all [le_of_lt]

theorem minLowCandle_is_min : ∀ (cs : List Candle) (c : Candle),
    ∀ e ∈ c :: cs, (minLowCandle c cs).low ≤ e.low := by
  intro cs
  induction cs with
  | nil =>
    intro c e he
    simp only [List.mem_singleton] at he
    simp [he, minLowCandle]
  | cons d ds ih =>
    intro c e he
    simp only [minLowCandle]
    have hc : (if d.low < c.low then d else c).low ≤ c.low := by
      split <;> simp_all [le_of_lt]
    have hd : (if d.low < c.low then d else c).low ≤ d.low := by
      split
      · exact le_refl _
      · simp_all [le_of_not_lt]
    rcases List.mem_cons.mp he with h | h
    · rw [h]
      exact le_trans (minLowCandle_le_low ds _) hc
    rcases List.mem_cons.mp h with h2 | h2
    · rw [h2]
      exact le_trans (minLowCandle_le_low ds _) hd
    · exact ih _ e (List.mem_cons_of_mem _ h2)

theorem minLowCandle_eq_or_lt : ∀ (cs : List Candle) (c : Candle),
    minLowCandle c cs = c ∨ (minLowCandle c cs).low < c.low := by
  intro cs
  induction cs with
  | nil => intro c; left; rfl
  | cons d ds ih =>
    intro c
    simp only [minLowCandle]
    by_cases hdc : d.low < c.low
    · right
      rw [if_pos hdc]
      exact lt_of_le_of_lt (minLowCandle_le_low ds d) hdc
    · rw [if_neg hdc]
      exact ih c

theorem map_low_min? : ∀ (cs : List Candle) (c : Candle),
    ((c :: cs).map Candle.low).min? = some (minLowCandle c cs).low := by
  intro cs
  induction cs with
  | nil => intro c; rfl
  | cons d ds ih =>
    intro c
    have hmin : min c.low d.low = (if d.low < c.low then d else c).low := by
      split
      · exact min_eq_right (le_of_lt (by assumption))
      · exact min_eq_left (le_of_not_lt (by assumption))
    have step : ((c :: d :: ds).map Candle.low).min? =
        (((if d.low < c.low then d else c) :: ds).map Candle.low).min? := by
      have e1 : ((c :: d :: ds).map Candle.low).min? =
          some ((ds.map Candle.low).foldl min (min c.low d.low)) := rfl
      have e2 : (((if d.low < c.low then d else c) :: ds).map Candle.low).min? =
          some ((ds.map Candle.low).foldl min
            (if d.low < c.low then d else c).low) := rfl
      rw [e1, e2, hmin]
    rw [step, ih, minLowCandle]

theorem find?_minLowCandle : ∀ (cs : List Candle) (c : Candle),
    (c :: cs).find? (fun d => d.low = (minLowCandle c cs).low) =
      some (minLowCandle c cs) := by
  intro cs
  induction cs with
  | nil =>
    intro c
    have h : minLowCandle c [] = c := rfl
    rw [h]
    exact List.find?_cons_of_pos _ (by simp)
  | cons d ds ih =>
    intro c
    by_cases hdc : d.low < c.low
    · have hM : minLowCandle c (d :: ds) = minLowCandle d ds := by
        simp [minLowCandle, if_pos hdc]
      rw [hM]
      have hlt : (minLowCandle d ds).low < c.low :=
        lt_of_le_of_lt (minLowCandle_le_low ds d) hdc
      rw [List.find?_cons_of_neg _ (by simp [(ne_of_lt hlt).symm])]
      exact ih d
    · have hM : minLowCandle c (d :: ds) = minLowCandle c ds := by
        simp [minLowCandle, if_neg hdc]
      rw [hM]
      rcases minLowCandle_eq_or_lt ds c with heq | hlt
      · rw [heq]
        exact List.find?_cons_of_pos _ (by simp)
      · have hcne : c.low ≠ (minLowCandle c ds).low := (ne_of_lt hlt).symm
        have hdne : d.low ≠ (minLowCandle c ds).low :=
          (ne_of_lt (lt_of_lt_of_le hlt (le_of_not_lt hdc))).symm
        rw [List.find?_cons_of_neg _ (by simp [hcne])]
        rw [List.find?_cons_of_neg _ (by simp [hdne])]
        have := ih c
        rw [List.find?_cons_of_neg _ (by simp [hcne])] at this
        exact this

theorem spec_extremum_slots_of_sorted (l : List Candle) (c : Candle)
    (cs : List Candle) (h : sortByTime l = c :: cs) :
    spec_extremum_slots l =
      (if (maxHighCandle c cs).start_time < (minLowCandle c cs).start_time then
        some (hourOf (maxHighCandle c cs).start_time,
          hourOf (minLowCandle c cs).start_time)
      else
        some (hourOf (minLowCandle c cs).start_time,
          hourOf (maxHighCandle c cs).start_time)) := by
  simp only [spec_extremum_slots, h]
  rw [map_high_max? cs c, map_low_min? cs c]
  simp only [find?_maxHighCandle cs c, find?_minLowCandle cs c]

theorem strictTimeSorted_filter (l : List Candle) (p : Candle → Bool)
    (h : StrictTimeSorted l) : StrictTimeSorted (l.filter p) := by
  haveI : IsTrans Candle (fun a b => a.start_time < b.start_time) :=
    ⟨fun _ _ _ h1 h2 => lt_trans h1 h2⟩
  unfold StrictTimeSorted at h ⊢
  rw [List.chain'_iff_pairwise] at h ⊢
  exact h.sublist (List.filter_sublist l)

/-- C1: for every non-empty bucket sub-series, with high_time the
timestamp of the first candle attaining the maximum high and low_time
that of the first candle attaining the minimum low, the slot pair is
(hour high_time, hour low_time) when high_time < low_time and
(hour low_time, hour high_time) otherwise (ties included); both
get_todays_pivots and the per-day scan of calculate_pivot_analysis
realize exactly this rule (spec_extremum_slots). -/
theorem claim_C1 (l : List Candle) (now : ℕ) :
    (∀ p1 p2 t1 t2, get_todays_pivots (some l) now = some (p1, p2, t1, t2) →
      spec_extremum_slots (todaysData l now) = some (p1, p2)) ∧
    (∀ (df : List Candle) (p : PivotDay), StrictTimeSorted df →
      p ∈ pivotDaysOf df →
      spec_extremum_slots (dayBucket df p.date) = some (p.p1_hour, p.p2_hour)) := by
  constructor
  · intro p1 p2 t1 t2 h
    simp only [get_todays_pivots] at h
    by_cases hemp : l.isEmpty
    · rw [if_pos hemp] at h
      cases h
    rw [if_neg hemp] at h
    cases hs : sortByTime (todaysData l now) with
    | nil =>
      rw [hs] at h
      cases h
    | cons c cs =>
      rw [hs] at h
      simp only at h
      rw [spec_extremum_slots_of_sorted _ c cs hs]
      split at h <;> rename_i hcmp
      · rw [if_pos hcmp]
        injection h with h1
        injection h1 with ha hrest
        injection hrest with hb _
        rw [ha, hb]
      · rw [if_neg hcmp]
        injection h with h1
        injection h1 with ha hrest
        injection hrest with hb _
        rw [ha, hb]
  · intro df p hsorted hp
    rcases List.mem_filterMap.mp hp with ⟨d, _, hfd⟩
    cases hb : dayBucket df d with
    | nil =>
      rw [hb] at hfd
      cases hfd
    | cons c cs =>
      rw [hb] at hfd
      simp only at hfd
      have hsort2 : StrictTimeSorted (dayBucket df d) :=
        strictTimeSorted_filter df _ hsorted
      have hsb : sortByTime (dayBucket df d) = c :: cs := by
        rw [sortByTime_eq_self _ hsort2, hb]
      split at hfd <;> rename_i hcmp <;>
        injection hfd with hpe <;> rw [← hpe] <;> simp only
      · rw [spec_extremum_slots_of_sorted _ c cs hsb, if_pos hcmp]
      · rw [spec_extremum_slots_of_sorted _ c cs hsb, if_neg hcmp]

theorem claim_C1_witness :
    (get_todays_pivots
        (some [⟨300, 5, 1⟩, ⟨600, 10, 9⟩, ⟨2940, 20, 19⟩, ⟨3180, 18, 2⟩]) 3480 =
          some (1, 5, 2940, 3180) ∧
      spec_extremum_slots
        (todaysData [⟨300, 5, 1⟩, ⟨600, 10, 9⟩, ⟨2940, 20, 19⟩, ⟨3180, 18, 2⟩] 3480) =
          some (1, 5)) ∧
    (StrictTimeSorted [⟨300, 5, 1⟩, ⟨600, 10, 9⟩] ∧
      (⟨0, 5, 10⟩ : PivotDay) ∈ pivotDaysOf [⟨300, 5, 1⟩, ⟨600, 10, 9⟩] ∧
      spec_extremum_slots (dayBucket [⟨300, 5, 1⟩, ⟨600, 10, 9⟩] 0) = some (5, 10)) :=
  ⟨⟨by decide, (claim_C1 _ 3480).1 1 5 2940 3180 (by decide)⟩,
    ⟨by simp [StrictTimeSorted, List.chain'_cons], by decide,
      (claim_C1 [] 0).2 [⟨300, 5, 1⟩, ⟨600, 10, 9⟩] ⟨0, 5, 10⟩
        (by simp [StrictTimeSorted, List.chain'_cons]) (by decide)⟩⟩

/-- Modelled from the spec's completed-bucket rule (3., 4.3): the
eligible buckets are those whose date differs from the evaluation
instant's UTC date; when no such completed bucket exists, all buckets
(including the in-progress one) are used instead. -/
def eligibleDays (pr : List PivotDay) (cur : ℕ) : List PivotDay :=
  if (pr.filter fun p => p.date ≠ cur) = [] then pr
  else pr.filter fun p => p.date ≠ cur

theorem eligibleDays_ne_nil (pr : List PivotDay) (cur : ℕ) (h : pr ≠ []) :
    eligibleDays pr cur ≠ [] := by
  unfold eligibleDays
  split
  · exact h
  · assumption

theorem code_eligible_eq (pr : List PivotDay) (cur : ℕ) :
    (if (if pr.any (fun p => p.date = cur) then pr.filter (fun p => p.date ≠ cur)
         else pr).length = 0
     then pr
     else if pr.any (fun p => p.date = cur) then pr.filter (fun p => p.date ≠ cur)
       else pr)
      = eligibleDays pr cur := by
  by_cases hany : pr.any (fun p => p.date = cur)
  · simp only [if_pos hany, eligibleDays, List.length_eq_zero]
  · have hfe : pr.filter (fun p => p.date ≠ cur) = pr := by
      apply List.filter_eq_self.mpr
      intro a ha
      simp only [List.any_eq_true, not_exists, not_and] at hany
      simp only [decide_eq_true_eq, ne_eq]
      intro heq
      exact absurd (decide_eq_true_eq.mpr heq) (by simpa using hany a ha)
    simp only [if_neg hany, eligibleDays, hfe, ite_self]

theorem calculate_unfold (l0 : List Candle) (sel : List ℕ) (now : ℕ)
    (h3 : pivotDaysOf (dailyFiltered l0 sel) ≠ []) :
    calculate_pivot_analysis (some l0) sel now =
      (let pr := pivotDaysOf (dailyFiltered l0 sel)
       let elig := eligibleDays pr (dateOf now)
       let denom : ℚ := (elig.length : ℚ)
       ((List.range 24).map fun hour =>
         ⟨hour,
          round1 (((elig.filter fun p => p.p1_hour = hour).length : ℚ) / denom * 100),
          (maxDate ((pr.filter fun p => p.p1_hour = hour).map PivotDay.date)).map
            (fun m => (dateOf now : ℤ) - (m : ℤ)),
          round1 (((elig.filter fun p => p.p2_hour = hour).length : ℚ) / denom * 100),
          (maxDate ((pr.filter fun p => p.p2_hour = hour).map PivotDay.date)).map
            (fun m => (dateOf now : ℤ) - (m : ℤ))⟩,
        elig.length)) := by
  have h2 : dailyFiltered l0 sel ≠ [] := by
    intro he
    rw [he] at h3
    exact h3 rfl
  have h1 : l0 ≠ [] := by
    intro he
    subst he
    exact h2 rfl
  have h1b : ¬ (l0.isEmpty = true) := by
    simpa [List.isEmpty_iff] using h1
  have h2b : ¬ ((dailyFiltered l0 sel).isEmpty = true) := by
    simpa [List.isEmpty_iff] using h2
  have h3b : ¬ ((pivotDaysOf (dailyFiltered l0 sel)).isEmpty = true) := by
    simpa [List.isEmpty_iff] using h3
  have helig : eligibleDays (pivotDaysOf (dailyFiltered l0 sel)) (dateOf now) ≠ [] :=
    eligibleDays_ne_nil _ _ h3
  have hlen : 0 < (eligibleDays (pivotDaysOf (dailyFiltered l0 sel)) (dateOf now)).length :=
    List.length_pos.mpr helig
  simp only [calculate_pivot_analysis, if_neg h1b, if_neg h2b, if_neg h3b]
  rw [code_eligible_eq (pivotDaysOf (dailyFiltered l0 sel)) (dateOf now)]
  rw [if_pos hlen]
  refine congrArg (fun x => (x, _)) ?_
  apply List.map_congr_left
  intro hour _
  rw [if_pos hlen, if_pos hlen]

theorem map_hour_range (f : ℕ → TableRow) (hf : ∀ h, (f h).hour = h) :
    ((List.range 24).map f).map TableRow.hour = List.range 24 := by
  rw [List.map_map]
  have hc : TableRow.hour ∘ f = fun h => h := funext hf
  rw [hc]
  simp

theorem build_empty_map_hour :
    build_empty_pivot_table.map TableRow.hour = List.range 24 :=
  map_hour_range _ fun _ => rfl

theorem calculate_eq_empty (l : List Candle) (sel : List ℕ) (now : ℕ)
    (hf : dailyFiltered l sel = []) :
    calculate_pivot_analysis (some l) sel now = (build_empty_pivot_table, 0) := by
  by_cases hA : l.isEmpty
  · simp only [calculate_pivot_analysis, if_pos hA]
  · simp only [calculate_pivot_analysis, if_neg hA, hf]
    rfl

/-- C3: for every input (None, empty, or emptied by the weekday filter)
calculate_pivot_analysis returns a full-domain table with one row per
hour 0..23; with no eligible buckets it returns the all-zero table with
None recency and completed-bucket count 0, and never a partial-domain
table. -/
theorem claim_C3 (df0 : Option (List Candle)) (sel : List ℕ) (now : ℕ) :
    ((calculate_pivot_analysis df0 sel now).1.map TableRow.hour = List.range 24) ∧
    ((∀ l, df0 = some l → dailyFiltered l sel = []) →
      calculate_pivot_analysis df0 sel now = (build_empty_pivot_table, 0)) ∧
    (∀ r ∈ build_empty_pivot_table,
      r.p1_pct = 0 ∧ r.p1_last = none ∧ r.p2_pct = 0 ∧ r.p2_last = none) := by
  refine ⟨?_, ?_, ?_⟩
  · cases df0 with
    | none => exact build_empty_map_hour
    | some l0 =>
      by_cases hA : l0.isEmpty
      · simp only [calculate_pivot_analysis, if_pos hA]
        exact build_empty_map_hour
      by_cases hB : (dailyFiltered l0 sel).isEmpty
      · simp only [calculate_pivot_analysis, if_neg hA, if_pos hB]
        exact build_empty_map_hour
      by_cases hC : (pivotDaysOf (dailyFiltered l0 sel)).isEmpty
      · simp only [calculate_pivot_analysis, if_neg hA, if_neg hB, if_pos hC]
        exact build_empty_map_hour
      · rw [calculate_unfold l0 sel now (by simpa [List.isEmpty_iff] using hC)]
        dsimp only
        apply map_hour_range
        intro h
        rfl
  · intro h
    cases df0 with
    | none => rfl
    | some l =>
      exact calculate_eq_empty l sel now (h l rfl)
  · intro r hr
    simp only [build_empty_pivot_table, List.mem_map, List.mem_range] at hr
    obtain ⟨h, _, rfl⟩ := hr
    exact ⟨rfl, rfl, rfl, rfl⟩

theorem claim_C3_witness :
    calculate_pivot_analysis (some [⟨0, 1, 0⟩]) [] 0 = (build_empty_pivot_table, 0) :=
  (claim_C3 (some [⟨0, 1, 0⟩]) [] 0).2.1 (by intro l hl; cases hl; decide)

/-- C2: on every series with at least one bucket after weekday
filtering, each table row's percentages are round(100 * count /
denominator, 1) where the eligible buckets and the denominator are the
buckets dated differently from the evaluation instant's UTC date, all
buckets serving as fallback when no completed bucket exists; the
returned count is that same denominator. -/
theorem claim_C2 (l0 : List Candle) (sel : List ℕ) (now : ℕ)
    (h3 : pivotDaysOf (dailyFiltered l0 sel) ≠ []) :
    (∀ r ∈ (calculate_pivot_analysis (some l0) sel now).1,
      r.p1_pct = round1 (100 *
        (((eligibleDays (pivotDaysOf (dailyFiltered l0 sel)) (dateOf now)).filter
          fun p => p.p1_hour = r.hour).length : ℚ) /
        ((eligibleDays (pivotDaysOf (dailyFiltered l0 sel)) (dateOf now)).length : ℚ)) ∧
      r.p2_pct = round1 (100 *
        (((eligibleDays (pivotDaysOf (dailyFiltered l0 sel)) (dateOf now)).filter
          fun p => p.p2_hour = r.hour).length : ℚ) /
        ((eligibleDays (pivotDaysOf (dailyFiltered l0 sel)) (dateOf now)).length : ℚ))) ∧
    (calculate_pivot_analysis (some l0) sel now).2 =
      (eligibleDays (pivotDaysOf (dailyFiltered l0 sel)) (dateOf now)).length := by
  rw [calculate_unfold l0 sel now h3]
  constructor
  · intro r hr
    simp only [List.mem_map, List.mem_range] at hr
    obtain ⟨hour, _, rfl⟩ := hr
    constructor
    · refine congrArg round1 ?_
      ring
    · refine congrArg round1 ?_
      ring
  · rfl

theorem claim_C2_witness :
    pivotDaysOf (dailyFiltered
      [⟨300, 5, 1⟩, ⟨600, 10, 9⟩, ⟨2940, 20, 19⟩, ⟨3180, 18, 2⟩] [0, 1, 2, 3, 4, 5, 6]) ≠ [] ∧
    (⟨5, 100, some 2, 0, some 0⟩ : TableRow) ∈
      (calculate_pivot_analysis
        (some [⟨300, 5, 1⟩, ⟨600, 10, 9⟩, ⟨2940, 20, 19⟩, ⟨3180, 18, 2⟩])
        [0, 1, 2, 3, 4, 5, 6] 3480).1 ∧
    (⟨5, 100, some 2, 0, some 0⟩ : TableRow).p1_pct = round1 (100 *
      (((eligibleDays (pivotDaysOf (dailyFiltered
          [⟨300, 5, 1⟩, ⟨600, 10, 9⟩, ⟨2940, 20, 19⟩, ⟨3180, 18, 2⟩]
          [0, 1, 2, 3, 4, 5, 6])) (dateOf 3480)).filter
        fun p => p.p1_hour = (⟨5, 100, some 2, 0, some 0⟩ : TableRow).hour).length : ℚ) /
      ((eligibleDays (pivotDaysOf (dailyFiltered
          [⟨300, 5, 1⟩, ⟨600, 10, 9⟩, ⟨2940, 20, 19⟩, ⟨3180, 18, 2⟩]
          [0, 1, 2, 3, 4, 5, 6])) (dateOf 3480)).length : ℚ)) :=
  ⟨by decide, by with_unfolding_all decide,
    ((claim_C2 [⟨300, 5, 1⟩, ⟨600, 10, 9⟩, ⟨2940, 20, 19⟩, ⟨3180, 18, 2⟩]
        [0, 1, 2, 3, 4, 5, 6] 3480 (by decide)).1
      ⟨5, 100, some 2, 0, some 0⟩ (by with_unfolding_all decide)).1⟩

theorem maxDate_eq_max? : ∀ L : List ℕ, maxDate L = L.max? := by
  intro L
  cases L <;> rfl

/-- C6: each row's Last P1 equals the day distance from the evaluation
date to the most recent date, over ALL buckets including the current
in-progress one, whose p1_slot is that row's hour, and None when the
slot never occurred; likewise for Last P2. -/
theorem claim_C6 (l0 : List Candle) (sel : List ℕ) (now : ℕ)
    (h3 : pivotDaysOf (dailyFiltered l0 sel) ≠ []) :
    ∀ r ∈ (calculate_pivot_analysis (some l0) sel now).1,
      r.p1_last = ((((pivotDaysOf (dailyFiltered l0 sel)).filter
          fun p => p.p1_hour = r.hour).map PivotDay.date).max?).map
            (fun m => (dateOf now : ℤ) - (m : ℤ)) ∧
      r.p2_last = ((((pivotDaysOf (dailyFiltered l0 sel)).filter
          fun p => p.p2_hour = r.hour).map PivotDay.date).max?).map
            (fun m => (dateOf now : ℤ) - (m : ℤ)) := by
  rw [calculate_unfold l0 sel now h3]
  intro r hr
  simp only [List.mem_map, List.mem_range] at hr
  obtain ⟨hour, _, rfl⟩ := hr
  rw [maxDate_eq_max?, maxDate_eq_max?]
  exact ⟨rfl, rfl⟩

theorem claim_C6_witness :
    pivotDaysOf (dailyFiltered
      [⟨300, 5, 1⟩, ⟨600, 10, 9⟩, ⟨2940, 20, 19⟩, ⟨3180, 18, 2⟩] [0, 1, 2, 3, 4, 5, 6]) ≠ [] ∧
    (⟨1, 0, some 0, 0, none⟩ : TableRow) ∈
      (calculate_pivot_analysis
        (some [⟨300, 5, 1⟩, ⟨600, 10, 9⟩, ⟨2940, 20, 19⟩, ⟨3180, 18, 2⟩])
        [0, 1, 2, 3, 4, 5, 6] 3480).1 ∧
    (⟨1, 0, some 0, 0, none⟩ : TableRow).p1_last =
      ((((pivotDaysOf (dailyFiltered
          [⟨300, 5, 1⟩, ⟨600, 10, 9⟩, ⟨2940, 20, 19⟩, ⟨3180, 18, 2⟩]
          [0, 1, 2, 3, 4, 5, 6])).filter
        fun p => p.p1_hour = (⟨1, 0, some 0, 0, none⟩ : TableRow).hour).map
          PivotDay.date).max?).map (fun m => (dateOf 3480 : ℤ) - (m : ℤ)) :=
  ⟨by decide, by with_unfolding_all decide,
    (claim_C6 [⟨300, 5, 1⟩, ⟨600, 10, 9⟩, ⟨2940, 20, 19⟩, ⟨3180, 18, 2⟩]
        [0, 1, 2, 3, 4, 5, 6] 3480 (by decide)
      ⟨1, 0, some 0, 0, none⟩ (by with_unfolding_all decide)).1⟩

theorem sum_range_filter_length (f : PivotDay → ℕ) (n : ℕ) :
    ∀ L : List PivotDay, (∀ p ∈ L, f p < n) →
      (∑ h ∈ Finset.range n, (L.filter fun p => f p = h).length) = L.length := by
  intro L
  induction L with
  | nil => intro _; simp
  | cons p L ih =>
    intro hf
    have hp : f p < n := hf p (List.mem_cons_self p L)
    have hrest := ih fun q hq => hf q (List.mem_cons_of_mem p hq)
    have hsplit : ∀ h, ((p :: L).filter fun q => f q = h).length =
        (if f p = h then 1 else 0) + (L.filter fun q => f q = h).length := by
      intro h
      by_cases hfp : f p = h
      · simp [List.filter_cons, hfp]
        omega
      · simp [List.filter_cons, hfp]
    calc (∑ h ∈ Finset.range n, ((p :: L).filter fun q => f q = h).length)
        = ∑ h ∈ Finset.range n,
            ((if f p = h then 1 else 0) + (L.filter fun q => f q = h).length) :=
          Finset.sum_congr rfl fun h _ => hsplit h
      _ = (∑ h ∈ Finset.range n, if f p = h then 1 else 0)
            + ∑ h ∈ Finset.range n, (L.filter fun q => f q = h).length :=
          Finset.sum_add_distrib
      _ = 1 + L.length := by
          rw [hrest, Finset.sum_ite_eq, if_pos (Finset.mem_range.mpr hp)]
      _ = (p :: L).length := by
          simp [List.length_cons]
          omega

theorem pivotDaysOf_hour_lt (l : List Candle) (p : PivotDay)
    (hp : p ∈ pivotDaysOf l) : p.p1_hour < 24 ∧ p.p2_hour < 24 := by
  rcases List.mem_filterMap.mp hp with ⟨d, _, hfd⟩
  cases hb : dayBucket l d with
  | nil =>
    rw [hb] at hfd
    cases hfd
  | cons c cs =>
    rw [hb] at hfd
    simp only at hfd
    split at hfd <;> injection hfd with hpe <;> rw [← hpe] <;>
      exact ⟨hourOf_lt _, hourOf_lt _⟩

theorem mem_eligibleDays (pr : List PivotDay) (cur : ℕ) (p : PivotDay)
    (hp : p ∈ eligibleDays pr cur) : p ∈ pr := by
  unfold eligibleDays at hp
  split at hp
  · exact hp
  · exact (List.mem_filter.mp hp).1

/-- C5: summing the per-slot P1 counts over all 24 hour slots recovers
the completed-bucket count returned by calculate_pivot_analysis (the
fallback count when no bucket is completed), and likewise for P2: every
eligible bucket lands in exactly one P1 slot and one P2 slot. -/
theorem claim_C5 (l0 : List Candle) (sel : List ℕ) (now : ℕ)
    (h3 : pivotDaysOf (dailyFiltered l0 sel) ≠ []) :
    (∑ h ∈ Finset.range 24,
        ((eligibleDays (pivotDaysOf (dailyFiltered l0 sel)) (dateOf now)).filter
          fun p => p.p1_hour = h).length)
      = (calculate_pivot_analysis (some l0) sel now).2 ∧
    (∑ h ∈ Finset.range 24,
        ((eligibleDays (pivotDaysOf (dailyFiltered l0 sel)) (dateOf now)).filter
          fun p => p.p2_hour = h).length)
      = (calculate_pivot_analysis (some l0) sel now).2 := by
  rw [calculate_unfold l0 sel now h3]
  have hsub : ∀ p ∈ eligibleDays (pivotDaysOf (dailyFiltered l0 sel)) (dateOf now),
      p ∈ pivotDaysOf (dailyFiltered l0 sel) :=
    fun p hp => mem_eligibleDays _ _ p hp
  constructor
  · exact sum_range_filter_length _ 24 _
      fun p hp => (pivotDaysOf_hour_lt _ p (hsub p hp)).1
  · exact sum_range_filter_length _ 24 _
      fun p hp => (pivotDaysOf_hour_lt _ p (hsub p hp)).2

theorem claim_C5_witness :
    pivotDaysOf (dailyFiltered
      [⟨300, 5, 1⟩, ⟨600, 10, 9⟩, ⟨2940, 20, 19⟩, ⟨3180, 18, 2⟩]
      [0, 1, 2, 3, 4, 5, 6]) ≠ [] ∧
    (∑ h ∈ Finset.range 24,
        ((eligibleDays (pivotDaysOf (dailyFiltered
            [⟨300, 5, 1⟩, ⟨600, 10, 9⟩, ⟨2940, 20, 19⟩, ⟨3180, 18, 2⟩]
            [0, 1, 2, 3, 4, 5, 6])) (dateOf 3480)).filter
          fun p => p.p1_hour = h).length)
      = (calculate_pivot_analysis
          (some [⟨300, 5, 1⟩, ⟨600, 10, 9⟩, ⟨2940, 20, 19⟩, ⟨3180, 18, 2⟩])
          [0, 1, 2, 3, 4, 5, 6] 3480).2 :=
  ⟨by decide,
    (claim_C5 [⟨300, 5, 1⟩, ⟨600, 10, 9⟩, ⟨2940, 20, 19⟩, ⟨3180, 18, 2⟩]
      [0, 1, 2, 3, 4, 5, 6] 3480 (by decide)).1⟩

theorem roundHalfEven_nonneg_le (r : ℚ) (h0 : 0 ≤ r) (hB : r ≤ 1000) :
    0 ≤ roundHalfEven r ∧ roundHalfEven r ≤ 1000 := by
  have hf0 : (0 : ℤ) ≤ ⌊r⌋ := Int.le_floor.mpr (by exact_mod_cast h0)
  have hfB : ⌊r⌋ ≤ 1000 := by
    have h := Int.floor_le_floor hB
    have h1000 : ⌊(1000 : ℚ)⌋ = 1000 := by norm_num
    rw [h1000] at h
    exact h
  have hfloor_le : (⌊r⌋ : ℚ) ≤ r := Int.floor_le r
  unfold roundHalfEven
  split_ifs with h1 h2 h3
  · exact ⟨hf0, hfB⟩
  · have hh : (1:ℚ)/2 ≤ r - ⌊r⌋ := le_of_lt h2
    have hcast : (⌊r⌋ : ℚ) < 1000 := by linarith
    have hlt : ⌊r⌋ < 1000 := by exact_mod_cast hcast
    omega
  · exact ⟨hf0, hfB⟩
  · have hh : (1:ℚ)/2 ≤ r - ⌊r⌋ := le_of_not_lt h1
    have hcast : (⌊r⌋ : ℚ) < 1000 := by linarith
    have hlt : ⌊r⌋ < 1000 := by exact_mod_cast hcast
    omega

theorem round1_nonneg_le (q : ℚ) (h0 : 0 ≤ q) (hB : q ≤ 100) :
    0 ≤ round1 q ∧ round1 q ≤ 100 := by
  obtain ⟨ha, hb⟩ := roundHalfEven_nonneg_le (10 * q) (by linarith) (by linarith)
  unfold round1
  constructor
  · apply div_nonneg _ (by norm_num : (0:ℚ) ≤ 10)
    exact_mod_cast ha
  · rw [div_le_iff₀ (by norm_num : (0:ℚ) < 10)]
    have hc : (roundHalfEven (10 * q) : ℚ) ≤ 1000 := by exact_mod_cast hb
    linarith

/-- C10: every row of every table produced by calculate_pivot_analysis
has its P1 % and P2 % between 0.0 and 100.0 inclusive: each slot's count
ranges over the same eligible set as the denominator. -/
theorem claim_C10 (df0 : Option (List Candle)) (sel : List ℕ) (now : ℕ) :
    ∀ r ∈ (calculate_pivot_analysis df0 sel now).1,
      0 ≤ r.p1_pct ∧ r.p1_pct ≤ 100 ∧ 0 ≤ r.p2_pct ∧ r.p2_pct ≤ 100 := by
  have hempty : ∀ r ∈ build_empty_pivot_table,
      0 ≤ r.p1_pct ∧ r.p1_pct ≤ 100 ∧ 0 ≤ r.p2_pct ∧ r.p2_pct ≤ 100 := by
    intro r hr
    simp only [build_empty_pivot_table, List.mem_map, List.mem_range] at hr
    obtain ⟨h, _, rfl⟩ := hr
    norm_num
  cases df0 with
  | none => exact hempty
  | some l0 =>
    by_cases hA : l0.isEmpty
    · simp only [calculate_pivot_analysis, if_pos hA]
      exact hempty
    by_cases hB : (dailyFiltered l0 sel).isEmpty
    · simp only [calculate_pivot_analysis, if_neg hA, if_pos hB]
      exact hempty
    by_cases hC : (pivotDaysOf (dailyFiltered l0 sel)).isEmpty
    · simp only [calculate_pivot_analysis, if_neg hA, if_neg hB, if_pos hC]
      exact hempty
    · have h3 : pivotDaysOf (dailyFiltered l0 sel) ≠ [] := by
        simpa [List.isEmpty_iff] using hC
      rw [calculate_unfold l0 sel now h3]
      intro r hr
      simp only [List.mem_map, List.mem_range] at hr
      obtain ⟨hour, _, rfl⟩ := hr
      have hpos : 0 < ((eligibleDays (pivotDaysOf (dailyFiltered l0 sel))
          (dateOf now)).length : ℚ) := by
        have := List.length_pos.mpr (eligibleDays_ne_nil _ (dateOf now) h3)
        exact_mod_cast this
      have hq : ∀ f : PivotDay → Bool,
          0 ≤ (((eligibleDays (pivotDaysOf (dailyFiltered l0 sel))
              (dateOf now)).filter f).length : ℚ) /
            ((eligibleDays (pivotDaysOf (dailyFiltered l0 sel)) (dateOf now)).length : ℚ)
              * 100 ∧
          (((eligibleDays (pivotDaysOf (dailyFiltered l0 sel))
              (dateOf now)).filter f).length : ℚ) /
            ((eligibleDays (pivotDaysOf (dailyFiltered l0 sel)) (dateOf now)).length : ℚ)
              * 100 ≤ 100 := by
        intro f
        have hle : (((eligibleDays (pivotDaysOf (dailyFiltered l0 sel))
            (dateOf now)).filter f).length : ℚ) ≤
            ((eligibleDays (pivotDaysOf (dailyFiltered l0 sel)) (dateOf now)).length : ℚ) := by
          exact_mod_cast List.length_filter_le f _
        have hnn : (0:ℚ) ≤ (((eligibleDays (pivotDaysOf (dailyFiltered l0 sel))
            (dateOf now)).filter f).length : ℚ) := by positivity
        constructor
        · positivity
        · have hdiv : (((eligibleDays (pivotDaysOf (dailyFiltered l0 sel))
              (dateOf now)).filter f).length : ℚ) /
              ((eligibleDays (pivotDaysOf (dailyFiltered l0 sel)) (dateOf now)).length : ℚ)
                ≤ 1 := by
            rw [div_le_one hpos]
            exact hle
          linarith
      obtain ⟨a1, b1⟩ := round1_nonneg_le _ (hq _).1 (hq _).2
      obtain ⟨a2, b2⟩ := round1_nonneg_le _ (hq _).1 (hq _).2
      exact ⟨a1, b1, a2, b2⟩

theorem claim_C10_witness :
    (⟨5, 100, some 2, 0, some 0⟩ : TableRow) ∈
      (calculate_pivot_analysis
        (some [⟨300, 5, 1⟩, ⟨600, 10, 9⟩, ⟨2940, 20, 19⟩, ⟨3180, 18, 2⟩])
        [0, 1, 2, 3, 4, 5, 6] 3480).1 ∧
    (0 ≤ (⟨5, 100, some 2, 0, some 0⟩ : TableRow).p1_pct ∧
      (⟨5, 100, some 2, 0, some 0⟩ : TableRow).p1_pct ≤ 100 ∧
      0 ≤ (⟨5, 100, some 2, 0, some 0⟩ : TableRow).p2_pct ∧
      (⟨5, 100, some 2, 0, some 0⟩ : TableRow).p2_pct ≤ 100) :=
  ⟨by with_unfolding_all decide,
    claim_C10 (some [⟨300, 5, 1⟩, ⟨600, 10, 9⟩, ⟨2940, 20, 19⟩, ⟨3180, 18, 2⟩])
      [0, 1, 2, 3, 4, 5, 6] 3480 ⟨5, 100, some 2, 0, some 0⟩
      (by with_unfolding_all decide)⟩

/-- C9: get_todays_pivots yields the all-None quadruple exactly when its
candle data is None, empty, or has no candle inside the evaluation
instant's UTC day, and otherwise a fully populated quadruple; no other
outcome exists. -/
theorem claim_C9 (kline : Option (List Candle)) (now : ℕ) :
    (get_todays_pivots kline now = none ↔
      (kline = none ∨ ∃ l, kline = some l ∧ todaysData l now = [])) ∧
    (∀ l, kline = some l → todaysData l now ≠ [] →
      ∃ p1 p2 t1 t2, get_todays_pivots kline now = some (p1, p2, t1, t2)) := by
  constructor
  · constructor
    · intro h
      cases kline with
      | none => exact Or.inl rfl
      | some l =>
        refine Or.inr ⟨l, rfl, ?_⟩
        simp only [get_todays_pivots] at h
        by_cases hemp : l.isEmpty
        · rw [List.isEmpty_iff] at hemp
          subst hemp
          rfl
        rw [if_neg hemp] at h
        cases hs : sortByTime (todaysData l now) with
        | nil => exact (sortByTime_eq_nil_iff _).mp hs
        | cons c cs =>
          rw [hs] at h
          simp only at h
          split at h <;> cases h
    · intro h
      rcases h with h | ⟨l, rfl, hl⟩
      · subst h
        rfl
      · simp only [get_todays_pivots]
        by_cases hemp : l.isEmpty
        · rw [if_pos hemp]
        · rw [if_neg hemp, hl]
          rfl
  · intro l hk hne
    subst hk
    simp only [get_todays_pivots]
    have hemp : ¬ (l.isEmpty = true) := by
      intro hcontra
      rw [List.isEmpty_iff] at hcontra
      subst hcontra
      exact hne rfl
    rw [if_neg hemp]
    cases hs : sortByTime (todaysData l now) with
    | nil => exact absurd ((sortByTime_eq_nil_iff _).mp hs) hne
    | cons c cs =>
      simp only
      split
      · exact ⟨_, _, _, _, rfl⟩
      · exact ⟨_, _, _, _, rfl⟩

theorem claim_C9_witness :
    todaysData [⟨300, 5, 1⟩] 100 ≠ [] ∧
    (∃ p1 p2 t1 t2,
      get_todays_pivots (some [⟨300, 5, 1⟩]) 100 = some (p1, p2, t1, t2)) :=
  ⟨by decide, (claim_C9 (some [⟨300, 5, 1⟩]) 100).2 [⟨300, 5, 1⟩] rfl (by decide)⟩

/-- C8: the weekday filter acts before bucketing.  A series whose candles
all fall on excluded weekdays yields the all-zero full-domain table with
completed-bucket count 0 (no fallback), and an excluded candle belongs to
no daily bucket and no weekly bucket, so it is absent from every
high/low search. -/
theorem claim_C8 :
    (∀ (l : List Candle) (sel : List ℕ) (now : ℕ),
      (∀ c ∈ l, weekdayOf c.start_time ∉ sel) →
      calculate_pivot_analysis (some l) sel now = (build_empty_pivot_table, 0)) ∧
    (∀ (kl : List Candle) (sel : List ℕ) (c : Candle) (d w : ℕ),
      weekdayOf c.start_time ∉ sel →
      c ∉ dayBucket (dailyFiltered kl sel) d ∧
      c ∉ weekBucket (weeklyFiltered kl sel) w) := by
  constructor
  · intro l sel now hexc
    have hf : dailyFiltered l sel = [] := by
      apply List.filter_eq_nil_iff.mpr
      intro c hc
      have hcl : c ∈ l := (sortByTime_perm l).mem_iff.mp hc
      simp only [decide_eq_true_eq]
      exact hexc c hcl
    exact calculate_eq_empty l sel now hf
  · intro kl sel c d w hexc
    constructor
    · intro hc
      have hmem := (List.mem_filter.mp hc).1
      have hsel := (List.mem_filter.mp hmem).2
      rw [decide_eq_true_eq] at hsel
      exact hexc hsel
    · intro hc
      have hmem := (List.mem_filter.mp hc).1
      have hsel := (List.mem_filter.mp hmem).2
      rw [decide_eq_true_eq] at hsel
      exact hexc hsel

theorem claim_C8_witness :
    (∀ c ∈ [(⟨1500, 5, 1⟩ : Candle)], weekdayOf c.start_time ∉ [0]) ∧
    calculate_pivot_analysis (some [⟨1500, 5, 1⟩]) [0] 0 =
      (build_empty_pivot_table, 0) ∧
    (weekdayOf (1500 : ℕ) ∉ [0] ∧
      (⟨1500, 5, 1⟩ : Candle) ∉ dayBucket (dailyFiltered [⟨1500, 5, 1⟩] [0]) 1 ∧
      (⟨1500, 5, 1⟩ : Candle) ∉ weekBucket (weeklyFiltered [⟨1500, 5, 1⟩] [0]) 0) :=
  ⟨by decide,
    claim_C8.1 [⟨1500, 5, 1⟩] [0] 0 (by decide),
    by decide,
    (claim_C8.2 [⟨1500, 5, 1⟩] [0] ⟨1500, 5, 1⟩ 1 0 (by decide)).1,
    (claim_C8.2 [⟨1500, 5, 1⟩] [0] ⟨1500, 5, 1⟩ 1 0 (by decide)).2⟩

/-- C7 counterexample: on a single-candle bucket the maximum high and the
minimum low sit on the same candle, so the produced pair has
p1_time = p2_time = 60, refuting the claimed strict inequality
p1_time < p2_time. -/
theorem claim_C7_counterexample :
    get_todays_pivots (some [⟨60, 5, 1⟩]) 100 = some (1, 1, 60, 60) ∧
      ¬ ((60 : ℕ) < 60) :=
  ⟨by decide, by decide⟩

/-- C7 amended: every produced Pivot Pair satisfies p1_time ≤ p2_time,
its two timestamps are those of a bucket maximum-high candle and a
bucket minimum-low candle, and the inequality is strict whenever those
two extremum timestamps differ (equality occurs exactly in the
same-candle degenerate case); this holds for the live tracker and for
the weekly per-week scan. -/
theorem claim_C7_amended :
    (∀ (l : List Candle) (now p1 p2 t1 t2 : ℕ),
      get_todays_pivots (some l) now = some (p1, p2, t1, t2) →
      t1 ≤ t2 ∧
      ∃ ch cl : Candle, ch ∈ todaysData l now ∧ cl ∈ todaysData l now ∧
        (∀ e ∈ todaysData l now, e.high ≤ ch.high) ∧
        (∀ e ∈ todaysData l now, cl.low ≤ e.low) ∧
        ((t1 = ch.start_time ∧ t2 = cl.start_time) ∨
          (t1 = cl.start_time ∧ t2 = ch.start_time)) ∧
        (ch.start_time ≠ cl.start_time → t1 < t2)) ∧
    (∀ (lw : List Candle) (p : WeekPivot), p ∈ weekPivotsOf lw →
      p.p1_time ≤ p.p2_time ∧
      ∃ ch cl : Candle, ch ∈ weekBucket lw p.week ∧ cl ∈ weekBucket lw p.week ∧
        (∀ e ∈ weekBucket lw p.week, e.high ≤ ch.high) ∧
        (∀ e ∈ weekBucket lw p.week, cl.low ≤ e.low) ∧
        ((p.p1_time = ch.start_time ∧ p.p2_time = cl.start_time) ∨
          (p.p1_time = cl.start_time ∧ p.p2_time = ch.start_time)) ∧
        (ch.start_time ≠ cl.start_time → p.p1_time < p.p2_time)) := by
  constructor
  · intro l now p1 p2 t1 t2 h
    simp only [get_todays_pivots] at h
    by_cases hemp : l.isEmpty
    · rw [if_pos hemp] at h
      cases h
    rw [if_neg hemp] at h
    cases hs : sortByTime (todaysData l now) with
    | nil =>
      rw [hs] at h
      cases h
    | cons c cs =>
      rw [hs] at h
      simp only at h
      have hperm : (c :: cs).Perm (todaysData l now) := by
        rw [← hs]
        exact sortByTime_perm (todaysData l now)
      have hchm : maxHighCandle c cs ∈ todaysData l now :=
        hperm.mem_iff.mp (maxHighCandle_mem cs c)
      have hclm : minLowCandle c cs ∈ todaysData l now :=
        hperm.mem_iff.mp (minLowCandle_mem cs c)
      have hmax : ∀ e ∈ todaysData l now, e.high ≤ (maxHighCandle c cs).high :=
        fun e he => maxHighCandle_is_max cs c e (hperm.mem_iff.mpr he)
      have hmin : ∀ e ∈ todaysData l now, (minLowCandle c cs).low ≤ e.low :=
        fun e he => minLowCandle_is_min cs c e (hperm.mem_iff.mpr he)
      split at h <;> rename_i hcmp <;>
        injection h with h1 <;> injection h1 with ha h2 <;>
        injection h2 with hb h3 <;> injection h3 with hc hd <;>
        subst hc <;> subst hd
      · exact ⟨le_of_lt hcmp, maxHighCandle c cs, minLowCandle c cs,
          hchm, hclm, hmax, hmin, Or.inl ⟨rfl, rfl⟩, fun _ => hcmp⟩
      · have hle := le_of_not_lt hcmp
        exact ⟨hle, maxHighCandle c cs, minLowCandle c cs,
          hchm, hclm, hmax, hmin, Or.inr ⟨rfl, rfl⟩,
          fun hne => lt_of_le_of_ne hle fun he => hne he.symm⟩
  · intro lw p hp
    rcases List.mem_filterMap.mp hp with ⟨w, _, hfd⟩
    cases hb : weekBucket lw w with
    | nil =>
      rw [hb] at hfd
      cases hfd
    | cons c cs =>
      rw [hb] at hfd
      simp only at hfd
      have hchm : maxHighCandle c cs ∈ weekBucket lw w := by
        rw [hb]
        exact maxHighCandle_mem cs c
      have hclm : minLowCandle c cs ∈ weekBucket lw w := by
        rw [hb]
        exact minLowCandle_mem cs c
      have hmax : ∀ e ∈ weekBucket lw w, e.high ≤ (maxHighCandle c cs).high := by
        intro e he
        rw [hb] at he
        exact maxHighCandle_is_max cs c e he
      have hmin : ∀ e ∈ weekBucket lw w, (minLowCandle c cs).low ≤ e.low := by
        intro e he
        rw [hb] at he
        exact minLowCandle_is_min cs c e he
      split at hfd <;> rename_i hcmp <;> injection hfd with hpe <;> rw [← hpe]
      · exact ⟨le_of_lt hcmp, maxHighCandle c cs, minLowCandle c cs,
          hchm, hclm, hmax, hmin, Or.inl ⟨rfl, rfl⟩, fun _ => hcmp⟩
      · have hle := le_of_not_lt hcmp
        exact ⟨hle, maxHighCandle c cs, minLowCandle c cs,
          hchm, hclm, hmax, hmin, Or.inr ⟨rfl, rfl⟩,
          fun hne => lt_of_le_of_ne hle fun he => hne he.symm⟩

theorem claim_C7_witness :
    get_todays_pivots (some [⟨300, 5, 1⟩, ⟨600, 10, 9⟩]) 100 =
        some (5, 10, 300, 600) ∧
      (300 : ℕ) ≤ 600 :=
  ⟨by decide,
    (claim_C7_amended.1 [⟨300, 5, 1⟩, ⟨600, 10, 9⟩] 100 5 10 300 600 (by decide)).1⟩

theorem table_shape (df0 : Option (List Candle)) (sel : List ℕ) (now : ℕ) :
    ∃ f : ℕ → TableRow,
      (calculate_pivot_analysis df0 sel now).1 = (List.range 24).map f ∧
      ∀ h, (f h).hour = h := by
  cases df0 with
  | none => exact ⟨fun h => ⟨h, 0, none, 0, none⟩, rfl, fun _ => rfl⟩
  | some l0 =>
    by_cases hA : l0.isEmpty
    · refine ⟨fun h => ⟨h, 0, none, 0, none⟩, ?_, fun _ => rfl⟩
      simp only [calculate_pivot_analysis, if_pos hA]
      rfl
    by_cases hB : (dailyFiltered l0 sel).isEmpty
    · refine ⟨fun h => ⟨h, 0, none, 0, none⟩, ?_, fun _ => rfl⟩
      simp only [calculate_pivot_analysis, if_neg hA, if_pos hB]
      rfl
    by_cases hC : (pivotDaysOf (dailyFiltered l0 sel)).isEmpty
    · refine ⟨fun h => ⟨h, 0, none, 0, none⟩, ?_, fun _ => rfl⟩
      simp only [calculate_pivot_analysis, if_neg hA, if_neg hB, if_pos hC]
      rfl
    · rw [calculate_unfold l0 sel now (by simpa [List.isEmpty_iff] using hC)]
      dsimp only
      exact ⟨_, rfl, fun _ => rfl⟩

theorem find?_range (n s : ℕ) :
    (List.range n).find? (fun h => h = s) = if s < n then some s else none := by
  induction n with
  | zero => simp
  | succ n ih =>
    rw [List.range_succ, List.find?_append, ih]
    by_cases h : s < n
    · rw [if_pos h, if_pos (by omega)]
      rfl
    · rw [if_neg h]
      by_cases he : s = n
      · subst he
        rw [if_pos (by omega)]
        simp
      · rw [if_neg (by omega)]
        simp [he]
        omega

theorem p1PctAt_map_range (f : ℕ → TableRow) (hf : ∀ h, (f h).hour = h) (s : ℕ) :
    p1PctAt ((List.range 24).map f) s = if s < 24 then (f s).p1_pct else 0 := by
  unfold p1PctAt
  rw [List.find?_map]
  have hp : ((fun r => decide (r.hour = s)) ∘ f) = fun h => decide (h = s) := by
    funext h
    simp [Function.comp, hf]
  rw [hp, find?_range]
  by_cases h : s < 24 <;> simp [h]

theorem p2PctAt_map_range (f : ℕ → TableRow) (hf : ∀ h, (f h).hour = h) (s : ℕ) :
    p2PctAt ((List.range 24).map f) s = if s < 24 then (f s).p2_pct else 0 := by
  unfold p2PctAt
  rw [List.find?_map]
  have hp : ((fun r => decide (r.hour = s)) ∘ f) = fun h => decide (h = s) := by
    funext h
    simp [Function.comp, hf]
  rw [hp, find?_range]
  by_cases h : s < 24 <;> simp [h]

theorem sumP1After_map (f : ℕ → TableRow) (hf : ∀ h, (f h).hour = h) (ref : ℕ) :
    sumP1After ((List.range 24).map f) ref =
      (((List.range 24).filter fun h => ref < h).map fun h => (f h).p1_pct).sum := by
  unfold sumP1After
  rw [List.filter_map, List.map_map]
  have hpred : ((fun r => decide (ref < r.hour)) ∘ f) = fun h => decide (ref < h) := by
    funext h
    simp [Function.comp, hf]
  rw [hpred]
  rfl

theorem sumP2After_map (f : ℕ → TableRow) (hf : ∀ h, (f h).hour = h) (ref : ℕ) :
    sumP2After ((List.range 24).map f) ref =
      (((List.range 24).filter fun h => ref < h).map fun h => (f h).p2_pct).sum := by
  unfold sumP2After
  rw [List.filter_map, List.map_map]
  have hpred : ((fun r => decide (ref < r.hour)) ∘ f) = fun h => decide (ref < h) := by
    funext h
    simp [Function.comp, hf]
  rw [hpred]
  rfl

theorem sumP1AtOrAfter_map (f : ℕ → TableRow) (hf : ∀ h, (f h).hour = h) (ref : ℕ) :
    sumP1AtOrAfter ((List.range 24).map f) ref =
      (((List.range 24).filter fun h => ref ≤ h).map fun h => (f h).p1_pct).sum := by
  unfold sumP1AtOrAfter
  rw [List.filter_map, List.map_map]
  have hpred : ((fun r => decide (ref ≤ r.hour)) ∘ f) = fun h => decide (ref ≤ h) := by
    funext h
    simp [Function.comp, hf]
  rw [hpred]
  rfl

theorem specTailP1_map (f : ℕ → TableRow) (hf : ∀ h, (f h).hour = h) (ref : ℕ) :
    specTailP1 ((List.range 24).map f) ref =
      (((List.range 24).filter fun h => ref < h).map fun h => (f h).p1_pct).sum := by
  unfold specTailP1
  congr 1
  apply List.map_congr_left
  intro s hs
  have hs24 : s < 24 := by
    have hm := (List.mem_filter.mp hs).1
    simpa [List.mem_range] using hm
  rw [p1PctAt_map_range f hf s, if_pos hs24]

theorem specTailP2_map (f : ℕ → TableRow) (hf : ∀ h, (f h).hour = h) (ref : ℕ) :
    specTailP2 ((List.range 24).map f) ref =
      (((List.range 24).filter fun h => ref < h).map fun h => (f h).p2_pct).sum := by
  unfold specTailP2
  congr 1
  apply List.map_congr_left
  intro s hs
  have hs24 : s < 24 := by
    have hm := (List.mem_filter.mp hs).1
    simpa [List.mem_range] using hm
  rw [p2PctAt_map_range f hf s, if_pos hs24]

theorem filter_le_eq_cons (n ref : ℕ) (h : ref < n) :
    (List.range n).filter (fun i => ref ≤ i) =
      ref :: (List.range n).filter (fun i => ref < i) := by
  induction n with
  | zero => omega
  | succ n ih =>
    rw [List.range_succ, List.filter_append, List.filter_append]
    by_cases hn : ref < n
    · rw [ih hn]
      have e1 : List.filter (fun i => decide (ref ≤ i)) [n] = [n] := by
        simp
        omega
      have e2 : List.filter (fun i => decide (ref < i)) [n] = [n] := by
        simp
        omega
      rw [e1, e2]
      rfl
    · have hrn : ref = n := by omega
      subst hrn
      have h1 : (List.range ref).filter (fun i => decide (ref ≤ i)) = [] := by
        apply List.filter_eq_nil_iff.mpr
        intro a ha
        simp only [List.mem_range] at ha
        simp only [decide_eq_true_eq]
        omega
      have h2 : (List.range ref).filter (fun i => decide (ref < i)) = [] := by
        apply List.filter_eq_nil_iff.mpr
        intro a ha
        simp only [List.mem_range] at ha
        simp only [decide_eq_true_eq]
        omega
      have e1 : List.filter (fun i => decide (ref ≤ i)) [ref] = [ref] := by simp
      have e2 : List.filter (fun i => decide (ref < i)) [ref] = [] := by simp
      rw [h1, h2, e1, e2]
      rfl

theorem foldl_add_eq_sum (g : ℕ → ℚ) : ∀ (L : List ℕ) (init : ℚ),
    L.foldl (fun acc i => acc + g i) init = init + (L.map g).sum := by
  intro L
  induction L with
  | nil => intro init; simp
  | cons a L ih =>
    intro init
    rw [List.foldl_cons, ih, List.map_cons, List.sum_cons]
    ring

theorem range'_eq_filter (ref : ℕ) :
    List.range' (ref + 1) (7 - (ref + 1)) = (List.range 7).filter fun i => ref < i := by
  by_cases h : ref < 7
  · interval_cases ref <;> decide
  · have h0 : 7 - (ref + 1) = 0 := by omega
    rw [h0]
    have he : (List.range 7).filter (fun i => decide (ref < i)) = [] := by
      apply List.filter_eq_nil_iff.mpr
      intro a ha
      simp only [List.mem_range] at ha
      simp only [decide_eq_true_eq]
      omega
    rw [he]
    rfl

/-- C4 counterexample: on a concrete series the live tracker's current
P2 slot is hour 5, the P1-flip-risk metric (at-or-after that slot) is
100 while the strict tail sum of the table's P1 % values is 0; and on a
concrete three-week series the weekly after-sum is 200/3 while the sum
of the weekly table's rounded P1 % values over the strictly later
weekdays is 333/5 — so the claimed identity with strict sums of the
table's values fails at both places. -/
theorem claim_C4_counterexample :
    (get_todays_pivots
        (some [⟨300, 5, 1⟩, ⟨600, 10, 9⟩, ⟨2940, 20, 19⟩, ⟨3180, 18, 2⟩]) 3480 =
          some (1, 5, 2940, 3180) ∧
      sumP1AtOrAfter (calculate_pivot_analysis
        (some [⟨300, 5, 1⟩, ⟨600, 10, 9⟩, ⟨2940, 20, 19⟩, ⟨3180, 18, 2⟩])
        [0, 1, 2, 3, 4, 5, 6] 3480).1 5 = 100 ∧
      specTailP1 (calculate_pivot_analysis
        (some [⟨300, 5, 1⟩, ⟨600, 10, 9⟩, ⟨2940, 20, 19⟩, ⟨3180, 18, 2⟩])
        [0, 1, 2, 3, 4, 5, 6] 3480).1 5 = 0 ∧
      (100 : ℚ) ≠ 0) ∧
    (weeklyAfterP1 [⟨4320, 5, 1⟩, ⟨15840, 5, 1⟩, ⟨20160, 5, 1⟩]
        [0, 1, 2, 3, 4, 5, 6] 2 = 200 / 3 ∧
      (((weeklyTable [⟨4320, 5, 1⟩, ⟨15840, 5, 1⟩, ⟨20160, 5, 1⟩]
          [0, 1, 2, 3, 4, 5, 6] 15).1.filter
            fun r => 2 < r.weekday).map WeekRow.p1_pct).sum = 333 / 5 ∧
      (200 : ℚ) / 3 ≠ 333 / 5) :=
  ⟨⟨by decide, by with_unfolding_all decide, by with_unfolding_all decide,
      by with_unfolding_all decide⟩,
    ⟨by with_unfolding_all decide, by with_unfolding_all decide,
      by with_unfolding_all decide⟩⟩

/-- C4 amended: on every table produced by calculate_pivot_analysis the
after-P1, after-P2 and after-current-hour metrics equal the sum of the
table's P1 % (or P2 %) values over slots strictly greater than the
reference slot; the P1-flip-risk metric instead sums over slots at or
after the current P2 slot, i.e. it adds the reference slot's own P1 %
to the strict tail sum; and the weekly after-sum metrics equal the
strict tail sums of the unrounded per-weekday percentages
(count / total_weeks * 100), not of the weekly table's rounded values. -/
theorem claim_C4_amended (df0 : Option (List Candle)) (sel : List ℕ) (now : ℕ)
    (ref : ℕ) (kl : List Candle) (selw : List ℕ) (refw : ℕ) :
    (sumP1After (calculate_pivot_analysis df0 sel now).1 ref =
      specTailP1 (calculate_pivot_analysis df0 sel now).1 ref) ∧
    (sumP2After (calculate_pivot_analysis df0 sel now).1 ref =
      specTailP2 (calculate_pivot_analysis df0 sel now).1 ref) ∧
    (sumP1AtOrAfter (calculate_pivot_analysis df0 sel now).1 ref =
      p1PctAt (calculate_pivot_analysis df0 sel now).1 ref +
        specTailP1 (calculate_pivot_analysis df0 sel now).1 ref) ∧
    (weeklyAfterP1 kl selw refw =
      (((List.range 7).filter fun i => refw < i).map fun i =>
        if 0 < (weekPivotsOf (weeklyFiltered kl selw)).length then
          (weekP1Count (weeklyFiltered kl selw) i : ℚ) /
            ((weekPivotsOf (weeklyFiltered kl selw)).length : ℚ) * 100
        else 0).sum) ∧
    (weeklyAfterP2 kl selw refw =
      (((List.range 7).filter fun i => refw < i).map fun i =>
        if 0 < (weekPivotsOf (weeklyFiltered kl selw)).length then
          (weekP2Count (weeklyFiltered kl selw) i : ℚ) /
            ((weekPivotsOf (weeklyFiltered kl selw)).length : ℚ) * 100
        else 0).sum) := by
  obtain ⟨f, hfe, hf⟩ := table_shape df0 sel now
  rw [hfe]
  refine ⟨?_, ?_, ?_, ?_, ?_⟩
  · rw [sumP1After_map f hf ref, specTailP1_map f hf ref]
  · rw [sumP2After_map f hf ref, specTailP2_map f hf ref]
  · rw [sumP1AtOrAfter_map f hf ref, specTailP1_map f hf ref,
      p1PctAt_map_range f hf ref]
    by_cases h : ref < 24
    · rw [if_pos h, filter_le_eq_cons 24 ref h, List.map_cons, List.sum_cons]
    · rw [if_neg h]
      have h1 : (List.range 24).filter (fun i => decide (ref ≤ i)) = [] := by
        apply List.filter_eq_nil_iff.mpr
        intro a ha
        simp only [List.mem_range] at ha
        simp only [decide_eq_true_eq]
        omega
      have h2 : (List.range 24).filter (fun i => decide (ref < i)) = [] := by
        apply List.filter_eq_nil_iff.mpr
        intro a ha
        simp only [List.mem_range] at ha
        simp only [decide_eq_true_eq]
        omega
      rw [h1, h2]
      simp
  · unfold weeklyAfterP1
    rw [foldl_add_eq_sum, range'_eq_filter refw, zero_add]
  · unfold weeklyAfterP2
    rw [foldl_add_eq_sum, range'_eq_filter refw, zero_add]

end Whop
